import Mathlib

/-!
Shallow embedding of `pangeo_forge/recipe.py`: the indexing and pipeline
engine of the NetCDF-to-Zarr recipes.  Pure index arithmetic
(`region_for_chunk`, `nitems_for_chunk`, `sequence_len`, the input and chunk
indices built in `__post_init__`) is translated directly; the side-effecting
pipeline stages (`cache_input`, `prepare_target`, `store_chunk`,
`finalize_target`) are translated as transformers of an explicit execution
state recording the cache contents, the target contents, and a log of the
transfer/write events each stage performs.  Fallible paths (opening an
uncached input, Python attribute errors, construction-time `ValueError` /
`StopIteration`) are translated as `Except`.

The helper module `pangeo_forge/utils.py` (`chunked_iterable`) and the
pattern module `pangeo_forge/patterns.py` (`ExplicitURLSequence`,
`VariableSequencePattern`) are not part of the sources; they are modelled
from the spec where indicated.
-/

/-- One entry of the `_inputs` index: `{"url": ..., "processed": ...}`
(`recipe.py`, `NetCDFtoZarrSequentialRecipe.__post_init__`). -/
structure InputRecord where
  url : String
  processed : Bool
deriving DecidableEq

/-- The write region returned by `region_for_chunk`: a half-open slice
`start ≤ i < stop` of the named growth dimension
(`{self.sequence_dim: slice(start, stop)}`). -/
structure Region where
  dim : String
  start : Nat
  stop : Nat
deriving DecidableEq

/-- Length of a half-open region. -/
def Region.len (rg : Region) : Nat := rg.stop - rg.start

/-- A fully constructed recipe object: the configuration fields of the
`NetCDFtoZarrRecipe` dataclass that the engine reads, together with the
derived index structures assigned in `__post_init__` of the two concrete
subclasses.  `κ` is the key type: `Nat` for the sequential recipe,
`String × Nat` for the multi-variable recipe.  `chunk_position` is the
subclass method of the same name; `sequence_len` is the value of the
subclass method `sequence_len()` (constant after construction). -/
structure RecipeCore (κ : Type) where
  sequence_dim : String
  inputs_per_chunk : Nat
  nitems_per_input : Nat
  require_cache : Bool
  consolidate_zarr : Bool
  target_chunks : Option (List (String × Nat))
  processed_input_nb : Nat
  inputs : List (κ × InputRecord)
  chunks_inputs : List (κ × List κ)
  init_chunks : List κ
  chunk_position : κ → Nat
  sequence_len : Nat

/-- Dictionary lookup `self._inputs[input_key]`, as first-match lookup in the
insertion-ordered association list. -/
def lookupInput {κ : Type} [DecidableEq κ] (r : RecipeCore κ) (k : κ) :
    Option InputRecord :=
  (r.inputs.find? fun q => decide (q.1 = k)).map (fun q => q.2)

/-- `inputs_for_chunk`: `self._chunks_inputs[chunk_key]`.  The `getD []`
default is never reached for a key of the index (Python raises `KeyError`
there). -/
def inputs_for_chunk {κ : Type} [DecidableEq κ] (r : RecipeCore κ) (ck : κ) :
    List κ :=
  ((r.chunks_inputs.find? fun q => decide (q.1 = ck)).map (fun q => q.2)).getD []

/-- `nitems_for_chunk`: `self.nitems_per_input * len(self.inputs_for_chunk(chunk_key))`. -/
def nitems_for_chunk {κ : Type} [DecidableEq κ] (r : RecipeCore κ) (ck : κ) : Nat :=
  r.nitems_per_input * (inputs_for_chunk r ck).length

/-- `region_for_chunk`: `stride = nitems_per_input * inputs_per_chunk`,
`start = chunk_position(chunk_key) * stride`, region `slice(start, start + nitems_for_chunk)`. -/
def region_for_chunk {κ : Type} [DecidableEq κ] (r : RecipeCore κ) (ck : κ) : Region :=
  { dim := r.sequence_dim
    start := r.chunk_position ck * (r.nitems_per_input * r.inputs_per_chunk)
    stop := r.chunk_position ck * (r.nitems_per_input * r.inputs_per_chunk)
      + nitems_for_chunk r ck }

/-- `iter_chunks`: yields the keys of `self._chunks_inputs` in insertion order. -/
def iter_chunks {κ : Type} (r : RecipeCore κ) : List κ :=
  r.chunks_inputs.map Prod.fst

/-- Fuel-driven core of `chunked_iterable`; the fuel is an upper bound on the
list length, so the second equation is never reached at the call sites below. -/
def chunkedFuel {α : Type} (size : Nat) : Nat → List α → List (List α)
  | _, [] => []
  | 0, _ :: _ => []
  | fuel + 1, a :: rest =>
    (a :: rest.take (size - 1)) :: chunkedFuel size fuel (rest.drop (size - 1))

/-- Modelled from the spec: `chunked_iterable` lives in `pangeo_forge/utils.py`,
which is not among the sources.  Spec 4.3: partition a sequence into
fixed-size groups of `size` consecutive items, the final group possibly
smaller.  (For the degenerate `size = 0`, where the Python generator would
not terminate, this model yields singleton groups; every claim below assumes
`inputs_per_chunk ≥ 1`.) -/
def chunked_iterable {α : Type} (size : Nat) (l : List α) : List (List α) :=
  chunkedFuel size l.length l

/-- Construction-time failures: `ValueError` raised by
`NetCDFtoZarrRecipe.__post_init__` and the `StopIteration` escaping
`next(iter(self._chunks_inputs))` on an empty chunk index. -/
inductive ConstructError where
  | valueError (msg : String)
  | stopIteration
deriving DecidableEq

/-- `self.target_chunks.get(self.sequence_dim)` (dict `get` on the requested
output chunking). -/
def targetChunksGet (sd : String) (tc : Option (List (String × Nat))) : Option Nat :=
  match tc with
  | none => none
  | some l => (l.find? fun q => decide (q.1 = sd)).map (fun q => q.2)

/-- `NetCDFtoZarrRecipe.__post_init__`: the validation of `target_chunks`.
`if self.target_chunks:` is false for `None` and for an empty dict;
`if sequence_dim_chunks:` is false for a missing key and for the value `0`
(Python truthiness), so those cases are not checked further. -/
def validate_target_chunks (sd : String) (nii : Nat)
    (tc : Option (List (String × Nat))) : Except ConstructError Unit :=
  match tc with
  | none => Except.ok ()
  | some l =>
    if l.isEmpty then Except.ok ()
    else
      match (l.find? fun q => decide (q.1 = sd)).map (fun q => q.2) with
      | none => Except.ok ()
      | some c =>
        if c = 0 then Except.ok ()
        else if nii < c then
          Except.error (ConstructError.valueError
            "sequence_dim_chunks must be <= nitems_per_input")
        else if nii % c > 0 then
          Except.error (ConstructError.valueError
            "sequence_dim_chunks must evenly divide nitems_per_input")
        else Except.ok ()

/-- `NetCDFtoZarrSequentialRecipe.__post_init__` after validation.  Modelled
from the spec for the part living in `pangeo_forge/patterns.py` (not among
the sources): `ExplicitURLSequence(processed_input_urls + input_urls)`
enumerates `(position, url)` pairs in list order (spec 4.1, sequential
pattern: a flat ordered list of locations with `InputKey = position`).
Everything else is translated from `recipe.py` directly: the input index
marks the first `len(processed_input_urls)` keys processed, the chunk index
groups the input keys with `chunked_iterable(self._inputs, inputs_per_chunk)`
and enumerates the groups, `chunk_position` is the identity, and
`sequence_len()` is the sum of `nitems_for_chunk` over `iter_chunks()`. -/
def buildSequential (sd : String) (ipc nii : Nat) (rc cz : Bool)
    (tc : Option (List (String × Nat))) (P I : List String) : RecipeCore Nat :=
  let urls := P ++ I
  let pnb := P.length
  let inputs := urls.enum.map fun q => (q.1, InputRecord.mk q.2 (decide (q.1 < pnb)))
  let chunks := (chunked_iterable ipc (inputs.map Prod.fst)).enum
  { sequence_dim := sd
    inputs_per_chunk := ipc
    nitems_per_input := nii
    require_cache := rc
    consolidate_zarr := cz
    target_chunks := tc
    processed_input_nb := pnb
    inputs := inputs
    chunks_inputs := chunks
    init_chunks := (chunks.map Prod.fst).take 1
    chunk_position := fun k => k
    sequence_len := (chunks.map fun q => nii * q.2.length).sum }

/-- `NetCDFtoZarrSequentialRecipe(...)`: runs the base-class validation, then
builds the indices; `_init_chunks = [next(iter(self._chunks_inputs))]` raises
`StopIteration` when the chunk index is empty, so construction fails there
(the `take 1` inside `buildSequential` is only reached nonempty). -/
def mkSequentialRecipe (sd : String) (ipc nii : Nat) (rc cz : Bool)
    (tc : Option (List (String × Nat))) (P I : List String) :
    Except ConstructError (RecipeCore Nat) :=
  match validate_target_chunks sd nii tc with
  | Except.error e => Except.error e
  | Except.ok _ =>
    let r := buildSequential sd ipc nii rc cz tc P I
    if r.chunks_inputs.isEmpty then Except.error ConstructError.stopIteration
    else Except.ok r

/-- Modelled from the spec: `VariableSequencePattern` lives in
`pangeo_forge/patterns.py`, which is not among the sources.  Spec 4.1,
multi-axis pattern: a Cartesian enumeration of an axis set (variable names)
crossed with a sequence-position set, `InputKey = (axis-value, position)`;
`format` produces the source location of each pair.  The enumeration is
variable-major, as the inline comment in
`NetCDFtoZarrMultiVarSequentialRecipe.__post_init__` records:
`("temp", 0), ("temp", 1), ..., ("salt", n)`. -/
structure VariableSequencePattern where
  variableKeys : List String
  sequence : List Nat
  format : String → Nat → String

/-- The `(InputKey, url)` enumeration of a `VariableSequencePattern`. -/
def VariableSequencePattern.pairs (p : VariableSequencePattern) :
    List ((String × Nat) × String) :=
  p.variableKeys.flatMap fun v => p.sequence.map fun n => ((v, n), p.format v n)

/-- `NetCDFtoZarrMultiVarSequentialRecipe.__post_init__` after validation:
`processed_input_nb = 0  # TODO`, every input record gets
`processed = False`, the chunk index is built per variable by filtering the
input keys on their variable component and chunking the sequence components,
`_init_chunks` keeps the chunk keys whose sequence position is `0`,
`chunk_position` is the second component, and `sequence_len()` is
`nitems_per_input * len(keys[_sequence_key])`. -/
def buildMulti (sd : String) (ipc nii : Nat) (rc cz : Bool)
    (tc : Option (List (String × Nat))) (p : VariableSequencePattern) :
    RecipeCore (String × Nat) :=
  let inputs := p.pairs.map fun q => (q.1, InputRecord.mk q.2 false)
  let inputKeys := inputs.map Prod.fst
  let chunks := p.variableKeys.flatMap fun v =>
    ((chunked_iterable ipc
        (((inputKeys.filter fun k => decide (k.1 = v)).map Prod.snd))).enum).map
      fun q => ((v, q.1), q.2.map fun n => (v, n))
  { sequence_dim := sd
    inputs_per_chunk := ipc
    nitems_per_input := nii
    require_cache := rc
    consolidate_zarr := cz
    target_chunks := tc
    processed_input_nb := 0
    inputs := inputs
    chunks_inputs := chunks
    init_chunks := (chunks.map Prod.fst).filter fun k => decide (k.2 = 0)
    chunk_position := fun k => k.2
    sequence_len := nii * p.sequence.length }

/-- `NetCDFtoZarrMultiVarSequentialRecipe(...)`: base-class validation, then
index construction (no emptiness failure on this path). -/
def mkMultiVarRecipe (sd : String) (ipc nii : Nat) (rc cz : Bool)
    (tc : Option (List (String × Nat))) (p : VariableSequencePattern) :
    Except ConstructError (RecipeCore (String × Nat)) :=
  match validate_target_chunks sd nii tc with
  | Except.error e => Except.error e
  | Except.ok _ => Except.ok (buildMulti sd ipc nii rc cz tc p)

/-- Run-time failures of the input-opening contract: the
`FileNotFoundError` raised by `NetCDFtoZarrRecipe.input_opener` on an
uncached input when `require_cache` holds, the Python `AttributeError`
raised when an attribute that the object does not carry is read, and the
`KeyError` of a dictionary lookup with a missing key. -/
inductive OpenError where
  | fileNotFound (fname : String)
  | attributeError (attr : String)
  | keyError
deriving DecidableEq

/-- How an input was opened: from the cache, or directly from the source. -/
inductive OpenResult where
  | fromCache (fname : String)
  | direct (fname : String)
deriving DecidableEq

/-- The attribute names carried by a fully constructed recipe object: the
dataclass fields of `NetCDFtoZarrRecipe` and of its two subclasses, plus the
attributes assigned in their `__post_init__` methods.  Used to model Python
attribute lookup. -/
def recipeAttributeNames : List String :=
  ["sequence_dim", "inputs_per_chunk", "nitems_per_input", "target",
   "input_cache", "require_cache", "consolidate_zarr", "xarray_open_kwargs",
   "xarray_concat_kwargs", "delete_input_encoding", "fsspec_open_kwargs",
   "process_input", "process_chunk", "target_chunks", "processed_input_urls",
   "input_urls", "input_pattern", "processed_input_nb", "_inputs",
   "_chunks_inputs", "_init_chunks", "_variables"]

/-- `NetCDFtoZarrRecipe.input_opener(fname)`: serve from the cache when the
file is cached; otherwise raise `FileNotFoundError` when `require_cache` is
set; otherwise fall back to a direct open — which first evaluates
`self.file_system_kwargs`, an attribute lookup on the recipe object. -/
def input_opener {κ : Type} (r : RecipeCore κ) (cached : List String)
    (fname : String) : Except OpenError OpenResult :=
  if fname ∈ cached then Except.ok (OpenResult.fromCache fname)
  else if r.require_cache then Except.error (OpenError.fileNotFound fname)
  else if "file_system_kwargs" ∈ recipeAttributeNames then
    Except.ok (OpenResult.direct fname)
  else Except.error (OpenError.attributeError "file_system_kwargs")

/-- `open_input(input_key)`: look the key up in `self._inputs` and open its
url through `input_opener`.  The opened dataset is identified by its input
key (its actual array content is outside the embedded core). -/
def open_input {κ : Type} [DecidableEq κ] (r : RecipeCore κ)
    (cached : List String) (k : κ) : Except OpenError κ :=
  match lookupInput r k with
  | none => Except.error OpenError.keyError
  | some rec => (input_opener r cached rec.url).map fun _ => k

/-- `open_chunk(chunk_key)`: open every input of the chunk (then concatenate;
the concatenated dataset is identified by the list of its input keys). -/
def open_chunk {κ : Type} [DecidableEq κ] (r : RecipeCore κ)
    (cached : List String) (ck : κ) : Except OpenError (List κ) :=
  (inputs_for_chunk r ck).mapM (open_input r cached)

/-- The externally visible state a recipe run acts on: the cache store (set
of cached urls plus the log of transfer events), and the target store
(created flag, current growth-dimension size, per-region contents, log of
region writes, consolidation flag). -/
structure ExecState (κ : Type) where
  cached : List String
  cacheLog : List String
  targetCreated : Bool
  targetDim : Nat
  targetData : List (Region × List κ)
  storeLog : List (κ × Region)
  consolidated : Bool
deriving DecidableEq

/-- The empty stores: nothing cached, no target yet. -/
def ExecState.base {κ : Type} : ExecState κ :=
  { cached := [], cacheLog := [], targetCreated := false, targetDim := 0,
    targetData := [], storeLog := [], consolidated := false }

/-- A recipe object together with the stores it acts on.  The recipe (its
configuration, indices and input records) is part of the state precisely so
that "the stages never mutate it" is a theorem rather than a modelling
assumption. -/
structure RunState (κ : Type) where
  recipe : RecipeCore κ
  exec : ExecState κ

/-- Add a url to the set of cached files (re-caching overwrites the same
entry, leaving the set unchanged). -/
def insertUrl (u : String) (l : List String) : List String :=
  if u ∈ l then l else l ++ [u]

/-- Overwrite the contents of one region of the target. -/
def setRegion {κ : Type} (rg : Region) (v : List κ)
    (t : List (Region × List κ)) : List (Region × List κ) :=
  if t.any fun q => decide (q.1 = rg) then
    t.map fun q => if q.1 = rg then (rg, v) else q
  else t ++ [(rg, v)]

/-- `cache_input(input_key)`: when the input record is marked `processed`,
only log a dry run and change nothing; otherwise stream the source into the
cache (the code has no already-cached check — see the `TODO` there — so the
transfer happens on every non-processed call and `cacheLog` records each
one).  A missing key is Python's `KeyError`. -/
def cache_input {κ : Type} [DecidableEq κ] (k : κ) (s : RunState κ) :
    Except OpenError (RunState κ) :=
  match lookupInput s.recipe k with
  | none => Except.error OpenError.keyError
  | some rec =>
    if rec.processed then Except.ok s
    else Except.ok
      { s with exec :=
        { s.exec with
          cached := insertUrl rec.url s.exec.cached
          cacheLog := s.exec.cacheLog ++ [rec.url] } }

/-- `processed` flag of one input key (`self._inputs[input_key]["processed"]`);
the default is never reached for keys of the index. -/
def processedOf {κ : Type} [DecidableEq κ] (r : RecipeCore κ) (k : κ) : Bool :=
  ((lookupInput r k).map (fun rec => rec.processed)).getD false

/-- `store_chunk(chunk_key)`: compute the write region; when every input of
the chunk is `processed`, only log a dry run and change nothing; otherwise
open the chunk (which can fail on uncached inputs) and write it into its
region of the target, recording the write event. -/
def store_chunk {κ : Type} [DecidableEq κ] (ck : κ) (s : RunState κ) :
    Except OpenError (RunState κ) :=
  let write_region := region_for_chunk s.recipe ck
  if (inputs_for_chunk s.recipe ck).all (fun ik => processedOf s.recipe ik) then
    Except.ok s
  else
    (open_chunk s.recipe s.exec.cached ck).map fun ds =>
      { s with exec :=
        { s.exec with
          targetData := setRegion write_region ds s.exec.targetData
          storeLog := s.exec.storeLog ++ [(ck, write_region)] } }

/-- `prepare_target()`: when a target already exists, resume it; otherwise
open every chunk of `_init_chunks` to infer the schema and create the target.
In both cases, expand the growth dimension to `sequence_len()`. -/
def prepare_target {κ : Type} [DecidableEq κ] (s : RunState κ) :
    Except OpenError (RunState κ) :=
  if s.exec.targetCreated then
    Except.ok { s with exec := { s.exec with targetDim := s.recipe.sequence_len } }
  else
    (s.recipe.init_chunks.mapM (open_chunk s.recipe s.exec.cached)).map fun _ =>
      { s with exec :=
        { s.exec with
          targetCreated := true
          targetDim := s.recipe.sequence_len } }

/-- `finalize_target()`: consolidate the target metadata when
`consolidate_zarr` is set. -/
def finalize_target {κ : Type} (s : RunState κ) : RunState κ :=
  if s.recipe.consolidate_zarr then
    { s with exec := { s.exec with consolidated := true } }
  else s

/-! ### Concrete recipes and run states used by the witnesses below -/

/-- A concrete sequential recipe: three inputs of two items each, one input
per chunk (the scenario of the spec). -/
def rExC1 : RecipeCore Nat :=
  buildSequential "time" 1 2 true true none [] ["a", "b", "c"]

/-- A concrete sequential recipe with one already-processed location and two
new ones. -/
def rExC7 : RecipeCore Nat :=
  buildSequential "time" 1 1 true true none ["a"] ["b", "c"]

/-- A concrete sequential recipe with a single input that is not yet
processed. -/
def rExC2 : RecipeCore Nat :=
  buildSequential "time" 1 1 true true none [] ["a"]

/-- A run state over `rExC2` whose single input is already cached. -/
def sExC2 : RunState Nat :=
  RunState.mk rExC2
    { cached := ["a"], cacheLog := [], targetCreated := false, targetDim := 0,
      targetData := [], storeLog := [], consolidated := false }

/-- The state after one `cache_input` call on `sExC2`: the transfer ran and
was logged, and the cache still holds the url. -/
def s1ExC2 : RunState Nat :=
  RunState.mk rExC2
    { cached := ["a"], cacheLog := ["a"], targetCreated := false, targetDim := 0,
      targetData := [], storeLog := [], consolidated := false }

/-- A concrete recipe with `require_cache = true` and an uncached input. -/
def rExC3t : RecipeCore Nat :=
  buildSequential "time" 1 1 true true none [] ["a.nc"]

/-- The same recipe with `require_cache = false`. -/
def rExC3f : RecipeCore Nat :=
  buildSequential "time" 1 1 false true none [] ["a.nc"]

/-- A concrete sequential recipe whose first input is already processed. -/
def rExC5 : RecipeCore Nat :=
  buildSequential "time" 1 1 true true none ["a"] ["b"]

/-- A run state over `rExC5` with empty stores. -/
def sExC5 : RunState Nat :=
  RunState.mk rExC5 ExecState.base

/-- A concrete multi-variable pattern: two variables, two sequence
positions. -/
def pExM : VariableSequencePattern :=
  VariableSequencePattern.mk ["foo", "bar"] [0, 1] (fun v n => v ++ toString n)

/-- The multi-variable recipe built from `pExM`. -/
def rExM : RecipeCore (String × Nat) :=
  buildMulti "time" 1 1 true true none pExM

/-- A run state over `rExM` with empty stores. -/
def sExM : RunState (String × Nat) :=
  RunState.mk rExM ExecState.base

/-! ### Properties of the chunk partition -/

/-- `chunkedFuel` does not depend on the fuel once the fuel dominates the
list length. -/
theorem chunkedFuel_congr {α : Type} (size : Nat) :
    ∀ (fuel fuel2 : Nat) (l : List α), l.length ≤ fuel → l.length ≤ fuel2 →
      chunkedFuel size fuel l = chunkedFuel size fuel2 l := by
  intro fuel
  induction fuel with
  | zero =>
    intro fuel2 l h1 h2
    have hl : l = [] := List.eq_nil_of_length_eq_zero (Nat.le_zero.mp h1)
    subst hl
    cases fuel2 <;> simp [chunkedFuel]
  | succ f ih =>
    intro fuel2 l h1 h2
    cases l with
    | nil => cases fuel2 <;> simp [chunkedFuel]
    | cons a rest =>
      cases fuel2 with
      | zero => simp at h2
      | succ f2 =>
        simp only [chunkedFuel, List.cons.injEq, true_and]
        apply ih
        · have := List.length_drop (size - 1) rest
          simp at h1
          omega
        · have := List.length_drop (size - 1) rest
          simp at h2
          omega

/-- Defining equation of `chunked_iterable` on the empty list. -/
theorem chunked_iterable_nil {α : Type} (size : Nat) :
    chunked_iterable size ([] : List α) = [] := rfl

/-- Defining equation of `chunked_iterable` on a nonempty list: one group of
`size` consecutive items, then the partition of the remainder. -/
theorem chunked_iterable_cons {α : Type} (size : Nat) (a : α) (rest : List α) :
    chunked_iterable size (a :: rest) =
      (a :: rest.take (size - 1)) :: chunked_iterable size (rest.drop (size - 1)) := by
  show chunkedFuel size (rest.length + 1) (a :: rest) = _
  simp only [chunkedFuel, List.cons.injEq, true_and]
  apply chunkedFuel_congr
  · have := List.length_drop (size - 1) rest
    omega
  · exact Nat.le_refl _

/-- Concatenating the groups of the partition gives back the original list. -/
theorem chunkedFuel_flatten {α : Type} (size : Nat) :
    ∀ (fuel : Nat) (l : List α), l.length ≤ fuel →
      (chunkedFuel size fuel l).flatten = l := by
  intro fuel
  induction fuel with
  | zero =>
    intro l h1
    have hl : l = [] := List.eq_nil_of_length_eq_zero (Nat.le_zero.mp h1)
    subst hl
    rfl
  | succ f ih =>
    intro l h1
    cases l with
    | nil => rfl
    | cons a rest =>
      simp only [chunkedFuel, List.flatten_cons, List.cons_append]
      rw [ih]
      · rw [List.take_append_drop]
      · have := List.length_drop (size - 1) rest
        simp at h1
        omega

/-- `chunked_iterable` partitions the list: flattening restores it. -/
theorem chunked_iterable_flatten {α : Type} (size : Nat) (l : List α) :
    (chunked_iterable size l).flatten = l :=
  chunkedFuel_flatten size l.length l (Nat.le_refl _)

/-- Every group produced by the partition is nonempty. -/
theorem chunkedFuel_ne_nil {α : Type} (size : Nat) :
    ∀ (fuel : Nat) (l : List α) (c : List α), c ∈ chunkedFuel size fuel l →
      c ≠ [] := by
  intro fuel
  induction fuel with
  | zero =>
    intro l c hc
    cases l <;> simp [chunkedFuel] at hc
  | succ f ih =>
    intro l c hc
    cases l with
    | nil => simp [chunkedFuel] at hc
    | cons a rest =>
      simp only [chunkedFuel, List.mem_cons] at hc
      rcases hc with hc | hc
      · subst hc; simp
      · exact ih _ c hc

/-- Index bound for the partition: group `i` exists exactly when the items it
would start at exist, i.e. `size * i < l.length` (for `size ≥ 1`). -/
theorem chunkedFuel_lt_length {α : Type} {size : Nat} (hs : 1 ≤ size) :
    ∀ (fuel : Nat) (l : List α) (i : Nat), l.length ≤ fuel →
      (i < (chunkedFuel size fuel l).length ↔ size * i < l.length) := by
  intro fuel
  induction fuel with
  | zero =>
    intro l i h1
    have hl : l = [] := List.eq_nil_of_length_eq_zero (Nat.le_zero.mp h1)
    subst hl
    simp [chunkedFuel]
  | succ f ih =>
    intro l i h1
    cases l with
    | nil => simp [chunkedFuel]
    | cons a rest =>
      cases i with
      | zero => simp [chunkedFuel]
      | succ i =>
        simp only [chunkedFuel, List.length_cons, Nat.succ_lt_succ_iff]
        have hdrop := List.length_drop (size - 1) rest
        have hlen : rest.length ≤ f := by simp at h1; omega
        have := ih (rest.drop (size - 1)) i (by omega)
        rw [Nat.mul_succ]
        omega

/-- Group `i` of the partition is `take size` of `drop (size * i)` (for
`size ≥ 1`). -/
theorem chunkedFuel_get {α : Type} {size : Nat} (hs : 1 ≤ size) :
    ∀ (fuel : Nat) (l : List α) (i : Nat)
      (h : i < (chunkedFuel size fuel l).length), l.length ≤ fuel →
      (chunkedFuel size fuel l).get ⟨i, h⟩ = (l.drop (size * i)).take size := by
  intro fuel
  induction fuel with
  | zero =>
    intro l i h h1
    have hl : l = [] := List.eq_nil_of_length_eq_zero (Nat.le_zero.mp h1)
    subst hl
    simp [chunkedFuel] at h
  | succ f ih =>
    intro l i h h1
    cases l with
    | nil => simp [chunkedFuel] at h
    | cons a rest =>
      cases i with
      | zero =>
        have hsz : size = (size - 1) + 1 := by omega
        simp only [chunkedFuel, List.get, Nat.mul_zero, List.drop_zero]
        rw [hsz, List.take_succ_cons]
        simp
      | succ i =>
        have hdrop := List.length_drop (size - 1) rest
        have hlen : rest.length ≤ f := by simp at h1; omega
        have hmem : i < (chunkedFuel size f (rest.drop (size - 1))).length := by
          simpa [chunkedFuel, Nat.succ_lt_succ_iff] using h
        have hrw := ih (rest.drop (size - 1)) i hmem (by omega)
        have hidx : size * (i + 1) = (size - 1 + size * i) + 1 := by
          rw [Nat.mul_succ]; omega
        simp only [chunkedFuel, List.get_cons_succ]
        rw [hrw, List.drop_drop, hidx, List.drop_succ_cons]

/-- Index bound for `chunked_iterable`. -/
theorem chunked_iterable_lt_length {α : Type} {size : Nat} (hs : 1 ≤ size)
    (l : List α) (i : Nat) :
    i < (chunked_iterable size l).length ↔ size * i < l.length :=
  chunkedFuel_lt_length hs l.length l i (Nat.le_refl _)

/-- Group `i` of `chunked_iterable`. -/
theorem chunked_iterable_get {α : Type} {size : Nat} (hs : 1 ≤ size)
    (l : List α) (i : Nat) (h : i < (chunked_iterable size l).length) :
    (chunked_iterable size l).get ⟨i, h⟩ = (l.drop (size * i)).take size :=
  chunkedFuel_get hs l.length l i h (Nat.le_refl _)

/-! ### Looking up enumerated association lists -/

/-- First-match lookup by key in an enumerated list finds exactly the entry
at the looked-up position. -/
theorem find?_enumFrom_eq_some {α : Type} (l : List α) :
    ∀ (n k : Nat) (h1 : n ≤ k) (h2 : k - n < l.length),
      (List.enumFrom n l).find? (fun q => decide (q.1 = k)) =
        some (k, l.get ⟨k - n, h2⟩) := by
  induction l with
  | nil => intro n k h1 h2; simp at h2
  | cons a as ih =>
    intro n k h1 h2
    rw [List.enumFrom_cons]
    by_cases hk : n = k
    · subst hk
      simp [List.find?]
    · have hfalse : (decide ((n, a).1 = k)) = false := by
        simp [hk]
      rw [List.find?_cons_of_neg _ (by simp [hk])]
      have h1' : n + 1 ≤ k := by omega
      have h2' : k - (n + 1) < as.length := by
        simp at h2
        omega
      rw [ih (n + 1) k h1' h2']
      have hidx : k - n = (k - (n + 1)) + 1 := by omega
      congr 1
      ext
      · rfl
      · simp only [hidx, List.get_cons_succ]

/-- First-match lookup by key in an enumerated list (starting at `0`). -/
theorem find?_enum_eq_some {α : Type} (l : List α) (k : Nat) (h : k < l.length) :
    (l.enum.find? fun q => decide (q.1 = k)) = some (k, l.get ⟨k, h⟩) := by
  rw [show l.enum = List.enumFrom 0 l from rfl]
  rw [find?_enumFrom_eq_some l 0 k (Nat.zero_le k) (by simpa using h)]
  rfl

/-! ### Characterization of the sequential recipe indices -/

/-- The input keys of a sequential recipe are the positions
`0 .. len(processed_input_urls + input_urls) - 1` in order. -/
theorem seq_inputs_map_fst (sd : String) (ipc nii : Nat) (rc cz : Bool)
    (tc : Option (List (String × Nat))) (P I : List String) :
    (buildSequential sd ipc nii rc cz tc P I).inputs.map Prod.fst =
      List.range (P.length + I.length) := by
  simp only [buildSequential]
  rw [List.map_map]
  rw [show (Prod.fst ∘ fun q : Nat × String =>
      (q.1, InputRecord.mk q.2 (decide (q.1 < P.length)))) = Prod.fst from rfl]
  rw [List.enum_map_fst, List.length_append]

/-- The chunk index of a sequential recipe enumerates the partition of the
input-key sequence into groups of `inputs_per_chunk`. -/
theorem seq_chunks_inputs (sd : String) (ipc nii : Nat) (rc cz : Bool)
    (tc : Option (List (String × Nat))) (P I : List String) :
    (buildSequential sd ipc nii rc cz tc P I).chunks_inputs =
      (chunked_iterable ipc (List.range (P.length + I.length))).enum := by
  simp only [buildSequential]
  rw [List.map_map]
  rw [show (Prod.fst ∘ fun q : Nat × String =>
      (q.1, InputRecord.mk q.2 (decide (q.1 < P.length)))) = Prod.fst from rfl]
  rw [List.enum_map_fst, List.length_append]

/-- Looking up input `k` of a sequential recipe returns the `k`-th url of
`processed_input_urls ++ input_urls`, marked processed exactly when `k` falls
in the processed prefix. -/
theorem seq_lookupInput (sd : String) (ipc nii : Nat) (rc cz : Bool)
    (tc : Option (List (String × Nat))) (P I : List String) (k : Nat)
    (h : k < (P ++ I).length) :
    lookupInput (buildSequential sd ipc nii rc cz tc P I) k =
      some (InputRecord.mk ((P ++ I).get ⟨k, h⟩) (decide (k < P.length))) := by
  simp only [lookupInput, buildSequential]
  rw [List.find?_map]
  rw [show ((fun q : Nat × InputRecord => decide (q.1 = k)) ∘ fun q : Nat × String =>
      (q.1, InputRecord.mk q.2 (decide (q.1 < P.length)))) =
      (fun q : Nat × String => decide (q.1 = k)) from rfl]
  rw [show (P ++ I).enum = List.enumFrom 0 (P ++ I) from rfl]
  rw [find?_enumFrom_eq_some (P ++ I) 0 k (Nat.zero_le k) (by simpa using h)]
  rfl

/-- The inputs of chunk `k` of a sequential recipe are the `inputs_per_chunk`
consecutive input keys starting at position `inputs_per_chunk * k`. -/
theorem seq_inputs_for_chunk (sd : String) (ipc nii : Nat) (rc cz : Bool)
    (tc : Option (List (String × Nat))) (P I : List String) (k : Nat)
    (hs : 1 ≤ ipc) (hk : ipc * k < P.length + I.length) :
    inputs_for_chunk (buildSequential sd ipc nii rc cz tc P I) k =
      ((List.range (P.length + I.length)).drop (ipc * k)).take ipc := by
  simp only [inputs_for_chunk]
  rw [seq_chunks_inputs]
  have hlen : k < (chunked_iterable ipc (List.range (P.length + I.length))).length := by
    rw [chunked_iterable_lt_length hs]
    simpa using hk
  rw [find?_enum_eq_some _ k hlen]
  simp only [Option.map_some', Option.getD_some]
  rw [chunked_iterable_get hs]

/-- `sequence_len()` of a sequential recipe equals
`nitems_per_input * (number of inputs)`. -/
theorem seq_sequence_len (sd : String) (ipc nii : Nat) (rc cz : Bool)
    (tc : Option (List (String × Nat))) (P I : List String) :
    (buildSequential sd ipc nii rc cz tc P I).sequence_len =
      nii * (P.length + I.length) := by
  simp only [buildSequential]
  rw [List.map_map]
  rw [show (Prod.fst ∘ fun q : Nat × String =>
      (q.1, InputRecord.mk q.2 (decide (q.1 < P.length)))) = Prod.fst from rfl]
  rw [List.enum_map_fst, List.length_append]
  rw [show (fun q : Nat × List Nat => nii * q.2.length) =
      ((fun x : List Nat => nii * x.length) ∘ Prod.snd) from rfl]
  rw [← List.map_map, List.enum_map_snd]
  rw [List.sum_map_mul_left]
  rw [← List.length_flatten, chunked_iterable_flatten, List.length_range]

/-- `iter_chunks()` of a sequential recipe yields `0, 1, 2, ...`, one key per
group of the partition. -/
theorem seq_iter_chunks (sd : String) (ipc nii : Nat) (rc cz : Bool)
    (tc : Option (List (String × Nat))) (P I : List String) :
    iter_chunks (buildSequential sd ipc nii rc cz tc P I) =
      List.range ((chunked_iterable ipc (List.range (P.length + I.length))).length) := by
  simp only [iter_chunks]
  rw [seq_chunks_inputs, List.enum_map_fst]

/-- Inverting a successful sequential construction: the result is
`buildSequential`, the chunk index is nonempty, and validation passed. -/
theorem mkSequentialRecipe_ok {sd : String} {ipc nii : Nat} {rc cz : Bool}
    {tc : Option (List (String × Nat))} {P I : List String} {r : RecipeCore Nat}
    (hr : mkSequentialRecipe sd ipc nii rc cz tc P I = Except.ok r) :
    r = buildSequential sd ipc nii rc cz tc P I ∧
    (buildSequential sd ipc nii rc cz tc P I).chunks_inputs ≠ [] ∧
    validate_target_chunks sd nii tc = Except.ok () := by
  unfold mkSequentialRecipe at hr
  cases hv : validate_target_chunks sd nii tc with
  | error e => rw [hv] at hr; simp at hr
  | ok u =>
    rw [hv] at hr
    by_cases he : (buildSequential sd ipc nii rc cz tc P I).chunks_inputs.isEmpty
    · simp [he] at hr
    · simp [he] at hr
      refine ⟨hr.symm, ?_, ?_⟩
      · intro hnil
        rw [hnil] at he
        simp at he
      · rfl

/-- Configuration projections of `buildSequential` (definitional). -/
theorem buildSequential_fields (sd : String) (ipc nii : Nat) (rc cz : Bool)
    (tc : Option (List (String × Nat))) (P I : List String) :
    (buildSequential sd ipc nii rc cz tc P I).sequence_dim = sd ∧
    (buildSequential sd ipc nii rc cz tc P I).inputs_per_chunk = ipc ∧
    (buildSequential sd ipc nii rc cz tc P I).nitems_per_input = nii ∧
    (buildSequential sd ipc nii rc cz tc P I).chunk_position = (fun k => k) ∧
    (buildSequential sd ipc nii rc cz tc P I).processed_input_nb = P.length :=
  ⟨rfl, rfl, rfl, rfl, rfl⟩

/-- An entry of an enumerated list looked up by its own key returns itself. -/
theorem find?_enum_of_mem {α : Type} (c : List α) (q : Nat × α)
    (hq : q ∈ c.enum) :
    (c.enum.find? fun p => decide (p.1 = q.1)) = some q := by
  rw [List.mem_enum_iff_get?] at hq
  obtain ⟨h, hget⟩ := List.get?_eq_some.mp hq
  rw [find?_enum_eq_some c q.1 h, hget]

/-- For an entry of the sequential chunk index, `inputs_for_chunk` of its key
is its input list. -/
theorem seq_inputs_for_chunk_entry (sd : String) (ipc nii : Nat) (rc cz : Bool)
    (tc : Option (List (String × Nat))) (P I : List String) (q : Nat × List Nat)
    (hq : q ∈ (buildSequential sd ipc nii rc cz tc P I).chunks_inputs) :
    inputs_for_chunk (buildSequential sd ipc nii rc cz tc P I) q.1 = q.2 := by
  rw [seq_chunks_inputs] at hq
  simp only [inputs_for_chunk]
  rw [seq_chunks_inputs, find?_enum_of_mem _ q hq]
  rfl

/-- Size bounds for the group of inputs of sequential chunk `k`: groups are
nonempty, at most `inputs_per_chunk` long, stay inside the input sequence,
and are either full or end exactly at the last input. -/
theorem seq_chunk_len_bounds (sd : String) (ipc nii : Nat) (rc cz : Bool)
    (tc : Option (List (String × Nat))) (P I : List String) (k : Nat)
    (hs : 1 ≤ ipc) (hk : ipc * k < P.length + I.length) :
    1 ≤ (inputs_for_chunk (buildSequential sd ipc nii rc cz tc P I) k).length ∧
    (inputs_for_chunk (buildSequential sd ipc nii rc cz tc P I) k).length ≤ ipc ∧
    ipc * k + (inputs_for_chunk (buildSequential sd ipc nii rc cz tc P I) k).length ≤
      P.length + I.length ∧
    ((inputs_for_chunk (buildSequential sd ipc nii rc cz tc P I) k).length = ipc ∨
      ipc * k + (inputs_for_chunk (buildSequential sd ipc nii rc cz tc P I) k).length =
        P.length + I.length) := by
  rw [seq_inputs_for_chunk sd ipc nii rc cz tc P I k hs hk]
  rw [List.length_take, List.length_drop, List.length_range]
  rw [Nat.min_def]
  split_ifs with h
  · omega
  · omega

/-- Claim C1: for every sequential recipe (growth-dimension name,
`inputs_per_chunk ≥ 1`, `nitems_per_input ≥ 1`, any non-empty input list —
enforced here by successful construction), the regions computed by
`region_for_chunk` for the chunk keys in iteration order sum to
`sequence_len()`, each region is
`[chunk_position * stride, chunk_position * stride + nitems_per_input * number_of_inputs_in_chunk)`
with `stride = inputs_per_chunk * nitems_per_input`, the regions are pairwise
disjoint, and they exactly tile `[0, sequence_len())` with no gaps. -/
theorem C1_sequential_regions_tile (sd : String) (ipc nii : Nat) (rc cz : Bool)
    (tc : Option (List (String × Nat))) (P I : List String) (r : RecipeCore Nat)
    (hipc : 1 ≤ ipc) (hnii : 1 ≤ nii)
    (hr : mkSequentialRecipe sd ipc nii rc cz tc P I = Except.ok r) :
    ((iter_chunks r).map fun k => (region_for_chunk r k).len).sum = r.sequence_len ∧
    (∀ k ∈ iter_chunks r, region_for_chunk r k =
      Region.mk sd (r.chunk_position k * (ipc * nii))
        (r.chunk_position k * (ipc * nii) + nii * (inputs_for_chunk r k).length)) ∧
    (iter_chunks r).Pairwise (fun k1 k2 =>
      (region_for_chunk r k1).stop ≤ (region_for_chunk r k2).start ∨
      (region_for_chunk r k2).stop ≤ (region_for_chunk r k1).start) ∧
    (∀ x, x < r.sequence_len ↔ ∃ k ∈ iter_chunks r,
      (region_for_chunk r k).start ≤ x ∧ x < (region_for_chunk r k).stop) := by
  obtain ⟨hreq, hne, -⟩ := mkSequentialRecipe_ok hr
  subst hreq
  have hiter := seq_iter_chunks sd ipc nii rc cz tc P I
  have hL := seq_sequence_len sd ipc nii rc cz tc P I
  have hmlen : ∀ k, k < (chunked_iterable ipc (List.range (P.length + I.length))).length ↔
      ipc * k < P.length + I.length := by
    intro k
    rw [chunked_iterable_lt_length hipc, List.length_range]
  refine ⟨?_, ?_, ?_, ?_⟩
  · -- the region lengths sum to sequence_len()
    simp only [iter_chunks]
    rw [List.map_map]
    rw [show (buildSequential sd ipc nii rc cz tc P I).sequence_len =
      ((buildSequential sd ipc nii rc cz tc P I).chunks_inputs.map
        fun q => nii * q.2.length).sum from rfl]
    refine congrArg List.sum (List.map_congr_left ?_)
    intro q hq
    show (region_for_chunk (buildSequential sd ipc nii rc cz tc P I) q.1).len =
      nii * q.2.length
    simp only [region_for_chunk, nitems_for_chunk, Region.len]
    rw [seq_inputs_for_chunk_entry sd ipc nii rc cz tc P I q hq]
    rw [show (buildSequential sd ipc nii rc cz tc P I).nitems_per_input = nii from rfl]
    omega
  · -- the stated region formula
    intro k hk
    simp only [region_for_chunk, nitems_for_chunk]
    rw [show (buildSequential sd ipc nii rc cz tc P I).sequence_dim = sd from rfl,
      show (buildSequential sd ipc nii rc cz tc P I).nitems_per_input = nii from rfl,
      show (buildSequential sd ipc nii rc cz tc P I).inputs_per_chunk = ipc from rfl]
    congr 1 <;> ring
  · -- pairwise disjointness
    rw [hiter, List.pairwise_iff_get]
    intro i j hij
    have hj : ipc * ((List.range
        ((chunked_iterable ipc (List.range (P.length + I.length))).length)).get j) <
        P.length + I.length := by
      rw [List.get_range]
      exact (hmlen j.val).mp (by simpa using j.isLt)
    have hi : ipc * ((List.range
        ((chunked_iterable ipc (List.range (P.length + I.length))).length)).get i) <
        P.length + I.length := by
      rw [List.get_range]
      exact (hmlen i.val).mp (by simpa using i.isLt)
    rw [List.get_range] at hi hj ⊢
    rw [List.get_range]
    left
    obtain ⟨-, hle, -, -⟩ := seq_chunk_len_bounds sd ipc nii rc cz tc P I i.val hipc hi
    simp only [region_for_chunk, nitems_for_chunk]
    show i.val * (nii * ipc) + nii * (inputs_for_chunk _ i.val).length ≤
      j.val * (nii * ipc)
    have h1 : nii * (inputs_for_chunk
        (buildSequential sd ipc nii rc cz tc P I) i.val).length ≤ nii * ipc :=
      Nat.mul_le_mul_left nii hle
    have h2 : i.val * (nii * ipc) + nii * ipc = (i.val + 1) * (nii * ipc) := by ring
    have h3 : (i.val + 1) * (nii * ipc) ≤ j.val * (nii * ipc) :=
      Nat.mul_le_mul_right _ hij
    omega
  · -- exact tiling of [0, sequence_len())
    intro x
    rw [hL]
    constructor
    · intro hx
      have hstridepos : 0 < nii * ipc := Nat.mul_pos hnii hipc
      have hdm := Nat.div_add_mod x (nii * ipc)
      have hmod := Nat.mod_lt x hstridepos
      have hkn : ipc * (x / (nii * ipc)) < P.length + I.length := by
        by_contra hcon
        have h2 : nii * (P.length + I.length) ≤
            nii * (ipc * (x / (nii * ipc))) :=
          Nat.mul_le_mul_left nii (Nat.le_of_not_lt hcon)
        have h3 : nii * (ipc * (x / (nii * ipc))) =
            (nii * ipc) * (x / (nii * ipc)) := by ring
        omega
      refine ⟨x / (nii * ipc), ?_, ?_, ?_⟩
      · rw [hiter, List.mem_range, hmlen]
        exact hkn
      · simp only [region_for_chunk]
        show (x / (nii * ipc)) * (nii * ipc) ≤ x
        have h3 : (x / (nii * ipc)) * (nii * ipc) =
            (nii * ipc) * (x / (nii * ipc)) := by ring
        omega
      · obtain ⟨-, -, hin, hcase⟩ :=
          seq_chunk_len_bounds sd ipc nii rc cz tc P I (x / (nii * ipc)) hipc hkn
        simp only [region_for_chunk, nitems_for_chunk]
        show x < (x / (nii * ipc)) * (nii * ipc) + nii * (inputs_for_chunk _ _).length
        have h3 : (x / (nii * ipc)) * (nii * ipc) =
            (nii * ipc) * (x / (nii * ipc)) := by ring
        rcases hcase with hfull | hlast
        · rw [hfull]
          omega
        · have h4 : nii * (ipc * (x / (nii * ipc))) +
              nii * (inputs_for_chunk (buildSequential sd ipc nii rc cz tc P I)
                (x / (nii * ipc))).length = nii * (P.length + I.length) := by
            rw [← Nat.mul_add, hlast]
          have h5 : nii * (ipc * (x / (nii * ipc))) =
              (nii * ipc) * (x / (nii * ipc)) := by ring
          omega
    · rintro ⟨k, hk, hstart, hstop⟩
      rw [hiter, List.mem_range, hmlen] at hk
      obtain ⟨-, -, hin, -⟩ := seq_chunk_len_bounds sd ipc nii rc cz tc P I k hipc hk
      simp only [region_for_chunk, nitems_for_chunk] at hstop
      have h4 : nii * (ipc * k) +
          nii * (inputs_for_chunk (buildSequential sd ipc nii rc cz tc P I) k).length ≤
          nii * (P.length + I.length) := by
        rw [← Nat.mul_add]
        exact Nat.mul_le_mul_left nii hin
      have h5 : k * (nii * ipc) = nii * (ipc * k) := by ring
      have h6 : (buildSequential sd ipc nii rc cz tc P I).chunk_position k *
          ((buildSequential sd ipc nii rc cz tc P I).nitems_per_input *
            (buildSequential sd ipc nii rc cz tc P I).inputs_per_chunk) =
          k * (nii * ipc) := rfl
      rw [h6] at hstop
      have h7 : (buildSequential sd ipc nii rc cz tc P I).nitems_per_input *
          (inputs_for_chunk (buildSequential sd ipc nii rc cz tc P I) k).length =
          nii * (inputs_for_chunk (buildSequential sd ipc nii rc cz tc P I) k).length :=
        rfl
      rw [h7] at hstop
      omega


/-- Witness for C1 at the concrete recipe `rExC1`. -/
theorem C1_sequential_regions_tile_witness :
    (1 ≤ 1 ∧ 1 ≤ 2 ∧
      mkSequentialRecipe "time" 1 2 true true none [] ["a", "b", "c"] =
        Except.ok rExC1) ∧
    (((iter_chunks rExC1).map fun k => (region_for_chunk rExC1 k).len).sum =
        rExC1.sequence_len ∧
    (∀ k ∈ iter_chunks rExC1, region_for_chunk rExC1 k =
      Region.mk "time" (rExC1.chunk_position k * (1 * 2))
        (rExC1.chunk_position k * (1 * 2) +
          2 * (inputs_for_chunk rExC1 k).length)) ∧
    (iter_chunks rExC1).Pairwise (fun k1 k2 =>
      (region_for_chunk rExC1 k1).stop ≤ (region_for_chunk rExC1 k2).start ∨
      (region_for_chunk rExC1 k2).stop ≤ (region_for_chunk rExC1 k1).start) ∧
    (∀ x, x < rExC1.sequence_len ↔ ∃ k ∈ iter_chunks rExC1,
      (region_for_chunk rExC1 k).start ≤ x ∧
      x < (region_for_chunk rExC1 k).stop)) :=
  ⟨⟨Nat.le_refl 1, by decide, rfl⟩,
    C1_sequential_regions_tile "time" 1 2 true true none [] ["a", "b", "c"]
      rExC1 (Nat.le_refl 1) (by decide) rfl⟩

/-- The partition of a nonempty list is nonempty. -/
theorem chunked_iterable_ne_nil {α : Type} (size : Nat) (l : List α)
    (h : l ≠ []) : chunked_iterable size l ≠ [] := by
  cases l with
  | nil => exact absurd rfl h
  | cons a rest =>
    rw [chunked_iterable_cons]
    simp

/-- A sequential recipe built from a nonempty url list has a nonempty chunk
index. -/
theorem seq_chunks_ne_nil (sd : String) (ipc nii : Nat) (rc cz : Bool)
    (tc : Option (List (String × Nat))) (P I : List String)
    (h : P ++ I ≠ []) :
    (buildSequential sd ipc nii rc cz tc P I).chunks_inputs ≠ [] := by
  rw [seq_chunks_inputs]
  have hn : List.range (P.length + I.length) ≠ [] := by
    intro hr
    apply h
    have hlen := congrArg List.length hr
    simp only [List.length_range, List.length_nil] at hlen
    apply List.eq_nil_of_length_eq_zero
    rw [List.length_append]
    exact hlen
  intro hceq
  cases hcl : chunked_iterable ipc (List.range (P.length + I.length)) with
  | nil => exact chunked_iterable_ne_nil ipc _ hn hcl
  | cons c cs =>
    rw [hcl, List.enum_cons] at hceq
    exact List.noConfusion hceq

/-- Claim C4, counterexample: requesting growth-dimension chunk length `0`
(which does not evenly divide `nitems_per_input = 3`, since `3 % 0 ≠ 0`)
does NOT raise: Python's `if sequence_dim_chunks:` treats `0` as falsy and
skips the validation, so construction succeeds. -/
theorem C4_counterexample :
    mkSequentialRecipe "time" 1 3 true true (some [("time", 0)]) [] ["a"] =
      Except.ok (buildSequential "time" 1 3 true true (some [("time", 0)]) [] ["a"]) ∧
    3 % 0 ≠ 0 :=
  ⟨rfl, by decide⟩

/-- Claim C4 (amended to positive requested chunk lengths): when the
requested output chunking gives the growth dimension a positive chunk length
`c`, construction raises `ValueError` exactly on the invalid side —
`c > nitems_per_input` or `c` not dividing `nitems_per_input` always raises
(no recipe is returned, so the chunking is never partially applied), and a
valid `c` (with a nonempty input list) constructs successfully. -/
theorem C4_validation (sd : String) (ipc nii c : Nat) (rc cz : Bool)
    (tc : Option (List (String × Nat))) (P I : List String)
    (htc : targetChunksGet sd tc = some c) (hc : 1 ≤ c) :
    ((nii < c ∨ nii % c ≠ 0) → ∃ msg,
      mkSequentialRecipe sd ipc nii rc cz tc P I =
        Except.error (ConstructError.valueError msg)) ∧
    (c ≤ nii → nii % c = 0 → P ++ I ≠ [] →
      mkSequentialRecipe sd ipc nii rc cz tc P I =
        Except.ok (buildSequential sd ipc nii rc cz tc P I)) := by
  cases tc with
  | none => simp [targetChunksGet] at htc
  | some l =>
    simp only [targetChunksGet] at htc
    obtain ⟨q, hfind, hq2⟩ := Option.map_eq_some'.mp htc
    have hlne : l ≠ [] := List.ne_nil_of_mem (List.mem_of_find?_eq_some hfind)
    have hemp : l.isEmpty = false := by
      cases hbe : l.isEmpty
      · rfl
      · exact absurd (List.isEmpty_iff.mp hbe) hlne
    have hval : validate_target_chunks sd nii (some l) =
        if nii < c then
          Except.error (ConstructError.valueError
            "sequence_dim_chunks must be <= nitems_per_input")
        else if nii % c > 0 then
          Except.error (ConstructError.valueError
            "sequence_dim_chunks must evenly divide nitems_per_input")
        else Except.ok () := by
      simp only [validate_target_chunks, hemp, Bool.false_eq_true, if_false,
        hfind, Option.map_some', hq2]
      rw [if_neg (by omega)]
    constructor
    · intro hbad
      unfold mkSequentialRecipe
      rw [hval]
      by_cases h1 : nii < c
      · rw [if_pos h1]
        exact ⟨_, rfl⟩
      · rw [if_neg h1]
        have h2 : nii % c > 0 := by omega
        rw [if_pos h2]
        exact ⟨_, rfl⟩
    · intro hle hdvd hne
      unfold mkSequentialRecipe
      rw [hval]
      rw [if_neg (by omega), if_neg (by omega)]
      have hnn := seq_chunks_ne_nil sd ipc nii rc cz (some l) P I hne
      rw [if_neg (fun hh => hnn (List.isEmpty_iff.mp hh))]

/-- Witness for the amended C4: requested chunk length `2` with
`nitems_per_input = 3` (the spec's rejection scenario) raises `ValueError`. -/
theorem C4_validation_witness :
    (targetChunksGet "time" (some [("time", 2)]) = some 2 ∧ 1 ≤ 2 ∧
      (3 < 2 ∨ 3 % 2 ≠ 0)) ∧
    (∃ msg, mkSequentialRecipe "time" 1 3 true true (some [("time", 2)]) [] ["a"] =
      Except.error (ConstructError.valueError msg)) :=
  ⟨⟨by decide, by decide, by decide⟩,
    (C4_validation "time" 1 3 2 true true (some [("time", 2)]) [] ["a"]
      (by decide) (by decide)).1 (by decide)⟩

/-- Claim C7: for every sequential recipe constructed with processed
locations `P` and new locations `I`, the input index enumerates `P ++ I` in
order with integer keys `0 .. |P|+|I|-1`, and exactly the first `|P|` inputs
are marked `processed = true`. -/
theorem C7_input_enumeration (sd : String) (ipc nii : Nat) (rc cz : Bool)
    (tc : Option (List (String × Nat))) (P I : List String) (r : RecipeCore Nat)
    (hr : mkSequentialRecipe sd ipc nii rc cz tc P I = Except.ok r) :
    r.inputs.map Prod.fst = List.range (P.length + I.length) ∧
    r.processed_input_nb = P.length ∧
    (∀ k (h : k < (P ++ I).length),
      lookupInput r k =
        some (InputRecord.mk ((P ++ I).get ⟨k, h⟩) (decide (k < P.length)))) ∧
    (∀ k (h : k < (P ++ I).length),
      ((lookupInput r k).map InputRecord.processed = some true ↔ k < P.length)) := by
  obtain ⟨hreq, -, -⟩ := mkSequentialRecipe_ok hr
  subst hreq
  refine ⟨seq_inputs_map_fst sd ipc nii rc cz tc P I, rfl, ?_, ?_⟩
  · intro k h
    exact seq_lookupInput sd ipc nii rc cz tc P I k h
  · intro k h
    rw [seq_lookupInput sd ipc nii rc cz tc P I k h]
    simp


/-- Witness for C7 at the concrete recipe `rExC7`. -/
theorem C7_input_enumeration_witness :
    (mkSequentialRecipe "time" 1 1 true true none ["a"] ["b", "c"] =
      Except.ok rExC7) ∧
    (rExC7.inputs.map Prod.fst =
        List.range (["a"].length + ["b", "c"].length) ∧
    rExC7.processed_input_nb = ["a"].length ∧
    (∀ k (h : k < (["a"] ++ ["b", "c"]).length),
      lookupInput rExC7 k =
        some (InputRecord.mk ((["a"] ++ ["b", "c"]).get ⟨k, h⟩)
          (decide (k < ["a"].length)))) ∧
    (∀ k (h : k < (["a"] ++ ["b", "c"]).length),
      ((lookupInput rExC7 k).map InputRecord.processed = some true ↔
        k < ["a"].length))) :=
  ⟨rfl, C7_input_enumeration "time" 1 1 true true none ["a"] ["b", "c"] rExC7 rfl⟩

/-! ### Behaviour of the pipeline stages -/

/-- The url just inserted is in the cache. -/
theorem mem_insertUrl (u : String) (l : List String) : u ∈ insertUrl u l := by
  unfold insertUrl
  split_ifs with h
  · exact h
  · simp

/-- Re-inserting the same url leaves the cache contents unchanged. -/
theorem insertUrl_idem (u : String) (l : List String) :
    insertUrl u (insertUrl u l) = insertUrl u l := by
  show (if u ∈ insertUrl u l then insertUrl u l else insertUrl u l ++ [u]) =
    insertUrl u l
  rw [if_pos (mem_insertUrl u l)]

/-- Re-writing the same contents into the same region leaves the target
contents unchanged. -/
theorem setRegion_idem {κ : Type} (rg : Region) (v : List κ)
    (t : List (Region × List κ)) :
    setRegion rg v (setRegion rg v t) = setRegion rg v t := by
  unfold setRegion
  by_cases h : t.any fun q => decide (q.1 = rg)
  · rw [if_pos h]
    obtain ⟨q, hq, hq1⟩ := List.any_eq_true.mp h
    have hq1' : q.1 = rg := of_decide_eq_true hq1
    have hmem : (rg, v) ∈ t.map fun p => if p.1 = rg then (rg, v) else p := by
      refine List.mem_map.mpr ⟨q, hq, ?_⟩
      rw [if_pos hq1']
    rw [if_pos (List.any_eq_true.mpr ⟨(rg, v), hmem, by simp⟩)]
    rw [List.map_map]
    refine List.map_congr_left ?_
    intro a ha
    show (if (if a.1 = rg then (rg, v) else a).1 = rg then (rg, v)
      else if a.1 = rg then (rg, v) else a) = if a.1 = rg then (rg, v) else a
    by_cases ha1 : a.1 = rg <;> simp [ha1]
  · rw [if_neg h]
    have hpos : ((t ++ [(rg, v)]).any fun q => decide (q.1 = rg)) = true :=
      List.any_eq_true.mpr ⟨(rg, v), by simp, by simp⟩
    rw [if_pos hpos, List.map_append]
    have hno : ∀ a ∈ t, ¬(a.1 = rg) := by
      intro a ha haeq
      exact h (List.any_eq_true.mpr ⟨a, ha, decide_eq_true haeq⟩)
    have ht : (t.map fun p => if p.1 = rg then (rg, v) else p) = t := by
      have hcongr : (t.map fun p => if p.1 = rg then (rg, v) else p) = t.map id :=
        List.map_congr_left fun a ha => by rw [if_neg (hno a ha)]; rfl
      rw [hcongr, List.map_id]
    rw [ht]
    simp

/-- Case analysis of `cache_input`: missing key, processed skip, or a
transfer into the cache. -/
theorem cache_input_spec {κ : Type} [DecidableEq κ] (k : κ) (s : RunState κ) :
    (lookupInput s.recipe k = none ∧
      cache_input k s = Except.error OpenError.keyError) ∨
    (∃ rec, lookupInput s.recipe k = some rec ∧ rec.processed = true ∧
      cache_input k s = Except.ok s) ∨
    (∃ rec, lookupInput s.recipe k = some rec ∧ rec.processed = false ∧
      cache_input k s = Except.ok (RunState.mk s.recipe
        { s.exec with
          cached := insertUrl rec.url s.exec.cached
          cacheLog := s.exec.cacheLog ++ [rec.url] })) := by
  unfold cache_input
  cases hk : lookupInput s.recipe k with
  | none => exact Or.inl ⟨rfl, rfl⟩
  | some rec =>
    by_cases hp : rec.processed
    · exact Or.inr (Or.inl ⟨rec, rfl, hp, by simp [hp]⟩)
    · refine Or.inr (Or.inr ⟨rec, rfl, by simpa using hp, ?_⟩)
      simp [hp]

/-- Case analysis of `store_chunk`: all-processed skip, failed chunk open,
or a region write. -/
theorem store_chunk_spec {κ : Type} [DecidableEq κ] (ck : κ) (s : RunState κ) :
    ((inputs_for_chunk s.recipe ck).all (fun ik => processedOf s.recipe ik) = true ∧
      store_chunk ck s = Except.ok s) ∨
    (∃ e, (inputs_for_chunk s.recipe ck).all (fun ik => processedOf s.recipe ik) = false ∧
      open_chunk s.recipe s.exec.cached ck = Except.error e ∧
      store_chunk ck s = Except.error e) ∨
    (∃ ds, (inputs_for_chunk s.recipe ck).all (fun ik => processedOf s.recipe ik) = false ∧
      open_chunk s.recipe s.exec.cached ck = Except.ok ds ∧
      store_chunk ck s = Except.ok (RunState.mk s.recipe
        { s.exec with
          targetData := setRegion (region_for_chunk s.recipe ck) ds s.exec.targetData
          storeLog := s.exec.storeLog ++ [(ck, region_for_chunk s.recipe ck)] })) := by
  unfold store_chunk
  by_cases hall : (inputs_for_chunk s.recipe ck).all
      (fun ik => processedOf s.recipe ik) = true
  · rw [if_pos hall]
    exact Or.inl ⟨hall, rfl⟩
  · rw [if_neg hall]
    cases ho : open_chunk s.recipe s.exec.cached ck with
    | error e =>
      exact Or.inr (Or.inl ⟨e, by simpa using hall, rfl, by simp [Except.map]⟩)
    | ok ds =>
      exact Or.inr (Or.inr ⟨ds, by simpa using hall, rfl, by simp [Except.map]⟩)

/-- Claim C5: `cache_input` on an input whose record has `processed = true`
performs no side effect (the call returns the state unchanged), and
`store_chunk` on a chunk all of whose inputs are processed performs no write
(the call returns the state unchanged). -/
theorem C5_processed_inputs_skipped {κ : Type} [DecidableEq κ]
    (s : RunState κ) (k ck : κ) (rec : InputRecord)
    (hk : lookupInput s.recipe k = some rec) (hp : rec.processed = true)
    (hall : ∀ ik ∈ inputs_for_chunk s.recipe ck, processedOf s.recipe ik = true) :
    cache_input k s = Except.ok s ∧ store_chunk ck s = Except.ok s := by
  constructor
  · simp [cache_input, hk, hp]
  · have hb : (inputs_for_chunk s.recipe ck).all
        (fun ik => processedOf s.recipe ik) = true :=
      List.all_eq_true.mpr hall
    simp [store_chunk, hb]

/-- Witness for C5: on `rExC5` the processed input `0` is skipped by
`cache_input`, and chunk `0` (all of whose inputs are processed) is skipped
by `store_chunk`. -/
theorem C5_processed_inputs_skipped_witness :
    (lookupInput rExC5 0 = some (InputRecord.mk "a" true) ∧
      (InputRecord.mk "a" true).processed = true ∧
      (∀ ik ∈ inputs_for_chunk rExC5 0, processedOf rExC5 ik = true)) ∧
    (cache_input 0 sExC5 = Except.ok sExC5 ∧
      store_chunk 0 sExC5 = Except.ok sExC5) :=
  ⟨⟨by decide, rfl, by decide⟩,
    C5_processed_inputs_skipped sExC5 0 0 (InputRecord.mk "a" true)
      (by decide) rfl (by decide)⟩

/-- Claim C9: none of the four pipeline stages changes the recipe component
of the run state — the input index (with every `InputRecord` field,
`processed` included), the chunk index, the initialization chunk set and the
configuration are exactly as constructed, whatever the stages do to the
cache and target stores. -/
theorem C9_stages_preserve_recipe {κ : Type} [DecidableEq κ]
    (s : RunState κ) (k ck : κ) :
    (cache_input k s).map RunState.recipe =
      (cache_input k s).map (fun _ => s.recipe) ∧
    (store_chunk ck s).map RunState.recipe =
      (store_chunk ck s).map (fun _ => s.recipe) ∧
    (prepare_target s).map RunState.recipe =
      (prepare_target s).map (fun _ => s.recipe) ∧
    (finalize_target s).recipe = s.recipe := by
  refine ⟨?_, ?_, ?_, ?_⟩
  · rcases cache_input_spec k s with ⟨-, he⟩ | ⟨rec, -, -, he⟩ | ⟨rec, -, -, he⟩ <;>
      rw [he] <;> rfl
  · rcases store_chunk_spec ck s with ⟨-, he⟩ | ⟨e, -, -, he⟩ | ⟨ds, -, -, he⟩ <;>
      rw [he] <;> rfl
  · unfold prepare_target
    by_cases hc : s.exec.targetCreated
    · simp [hc, Except.map]
    · rw [if_neg hc]
      cases hm : s.recipe.init_chunks.mapM (open_chunk s.recipe s.exec.cached) with
      | error e => simp [Except.map]
      | ok u => simp [Except.map]
  · unfold finalize_target
    by_cases hz : s.recipe.consolidate_zarr
    · rw [if_pos hz]
    · rw [if_neg hz]

/-- Claim C3, evaluation at the failing input: on an uncached, unprocessed
input, `input_opener` (and hence `open_input`) raises the not-cached
`FileNotFoundError` when `require_cache = true` — as the claim states — but
with `require_cache = false` the fallback path reads
`self.file_system_kwargs`, an attribute no recipe object carries (the
dataclass field is `fsspec_open_kwargs`), so the "successful direct open" is
actually an `AttributeError`.  Once the input is cached, opening succeeds
from the cache. -/
theorem C3_open_uncached_behaviour :
    input_opener rExC3t [] "a.nc" = Except.error (OpenError.fileNotFound "a.nc") ∧
    input_opener rExC3f [] "a.nc" =
      Except.error (OpenError.attributeError "file_system_kwargs") ∧
    open_input rExC3t [] 0 = Except.error (OpenError.fileNotFound "a.nc") ∧
    open_input rExC3f [] 0 =
      Except.error (OpenError.attributeError "file_system_kwargs") ∧
    input_opener rExC3t ["a.nc"] "a.nc" = Except.ok (OpenResult.fromCache "a.nc") :=
  ⟨rfl, rfl, rfl, rfl, rfl⟩

/-- Claim C2, counterexample: on the unprocessed (and even already cached)
input of `rExC2`, a second `cache_input` call is NOT a no-op skip — it runs
the transfer again (the cache log gains a second entry; the code has no
already-cached check).  Likewise a second `store_chunk` call writes the
region again (the store log gains a second entry). -/
theorem C2_counterexample :
    ((cache_input 0 sExC2).bind (fun t => cache_input 0 t)).map
      (fun t => t.exec.cacheLog) = Except.ok ["a", "a"] ∧
    (cache_input 0 sExC2).map (fun t => t.exec.cacheLog) = Except.ok ["a"] ∧
    ((store_chunk 0 sExC2).bind (fun t => store_chunk 0 t)).map
      (fun t => t.exec.storeLog.length) = Except.ok 2 ∧
    (store_chunk 0 sExC2).map (fun t => t.exec.storeLog.length) = Except.ok 1 :=
  ⟨rfl, rfl, rfl, rfl⟩

/-- Claim C2 (amended): a second `cache_input`/`store_chunk` call on the same
key repeats the transfer/write rather than skipping it, but it is idempotent
in effect — the cache contents and the target contents after the second call
equal those after the first. -/
theorem C2_effect_idempotent {κ : Type} [DecidableEq κ]
    (s s1 : RunState κ) (k ck : κ) :
    (cache_input k s = Except.ok s1 → ∃ s2, cache_input k s1 = Except.ok s2 ∧
      s2.exec.cached = s1.exec.cached ∧ s2.exec.targetData = s1.exec.targetData) ∧
    (store_chunk ck s = Except.ok s1 → ∃ s2, store_chunk ck s1 = Except.ok s2 ∧
      s2.exec.targetData = s1.exec.targetData ∧ s2.exec.cached = s1.exec.cached) := by
  constructor
  · intro h
    rcases cache_input_spec k s with ⟨-, he⟩ | ⟨rec, hk, hp, he⟩ | ⟨rec, hk, hp, he⟩
    · rw [he] at h
      exact absurd h (by simp)
    · rw [he] at h
      have hs : s = s1 := Except.ok.inj h
      subst hs
      exact ⟨s, he, rfl, rfl⟩
    · rw [he] at h
      have hs1 := Except.ok.inj h
      subst hs1
      rcases cache_input_spec k (RunState.mk s.recipe
          { s.exec with
            cached := insertUrl rec.url s.exec.cached
            cacheLog := s.exec.cacheLog ++ [rec.url] }) with
        ⟨hk2, he2⟩ | ⟨rec2, hk2, hp2, he2⟩ | ⟨rec2, hk2, hp2, he2⟩
      · have hk2' : lookupInput s.recipe k = none := hk2
        rw [hk] at hk2'
        exact Option.noConfusion hk2'
      · have hk2' : lookupInput s.recipe k = some rec2 := hk2
        rw [hk] at hk2'
        have hrec := Option.some.inj hk2'
        rw [← hrec] at hp2
        rw [hp] at hp2
        exact Bool.noConfusion hp2
      · have hk2' : lookupInput s.recipe k = some rec2 := hk2
        rw [hk] at hk2'
        have hrec := Option.some.inj hk2'
        refine ⟨_, he2, ?_, rfl⟩
        show insertUrl rec2.url (insertUrl rec.url s.exec.cached) =
          insertUrl rec.url s.exec.cached
        rw [← hrec]
        exact insertUrl_idem rec.url s.exec.cached
  · intro h
    rcases store_chunk_spec ck s with ⟨hall, he⟩ | ⟨e, hall, ho, he⟩ | ⟨ds, hall, ho, he⟩
    · rw [he] at h
      have hs : s = s1 := Except.ok.inj h
      subst hs
      exact ⟨s, he, rfl, rfl⟩
    · rw [he] at h
      exact absurd h (by simp)
    · rw [he] at h
      have hs1 := Except.ok.inj h
      subst hs1
      rcases store_chunk_spec ck (RunState.mk s.recipe
          { s.exec with
            targetData := setRegion (region_for_chunk s.recipe ck) ds s.exec.targetData
            storeLog := s.exec.storeLog ++ [(ck, region_for_chunk s.recipe ck)] }) with
        ⟨hall2, he2⟩ | ⟨e2, hall2, ho2, he2⟩ | ⟨ds2, hall2, ho2, he2⟩
      · have hall2' : (inputs_for_chunk s.recipe ck).all
            (fun ik => processedOf s.recipe ik) = true := hall2
        rw [hall] at hall2'
        exact Bool.noConfusion hall2'
      · have ho2' : open_chunk s.recipe s.exec.cached ck = Except.error e2 := ho2
        rw [ho] at ho2'
        exact Except.noConfusion ho2'
      · have ho2' : open_chunk s.recipe s.exec.cached ck = Except.ok ds2 := ho2
        rw [ho] at ho2'
        have hds := Except.ok.inj ho2'
        refine ⟨_, he2, ?_, rfl⟩
        show setRegion (region_for_chunk s.recipe ck) ds2
            (setRegion (region_for_chunk s.recipe ck) ds s.exec.targetData) =
          setRegion (region_for_chunk s.recipe ck) ds s.exec.targetData
        rw [← hds]
        exact setRegion_idem (region_for_chunk s.recipe ck) ds s.exec.targetData

/-- Witness for the amended C2: the first `cache_input` on `sExC2` transfers
the input; the second call transfers again but leaves the cache contents and
the target contents as they were. -/
theorem C2_effect_idempotent_witness :
    (cache_input 0 sExC2 = Except.ok s1ExC2) ∧
    (∃ s2, cache_input 0 s1ExC2 = Except.ok s2 ∧
      s2.exec.cached = s1ExC2.exec.cached ∧
      s2.exec.targetData = s1ExC2.exec.targetData) :=
  ⟨rfl, (C2_effect_idempotent sExC2 s1ExC2 0 0).1 rfl⟩

/-! ### Characterization of the multi-variable recipe indices -/

/-- The input keys of a multi-variable recipe are the Cartesian pairs
`(variable, position)` in variable-major order. -/
theorem multi_pairs_keys (p : VariableSequencePattern) :
    ((p.pairs.map fun q => (q.1, InputRecord.mk q.2 false)).map Prod.fst) =
      p.variableKeys.flatMap fun v => p.sequence.map fun n => (v, n) := by
  rw [List.map_map]
  simp only [VariableSequencePattern.pairs]
  rw [List.map_flatMap]
  refine List.flatMap_congr ?_
  intro v hv
  rw [List.map_map]
  refine List.map_congr_left ?_
  intro n hn
  rfl

/-- Filtering the Cartesian key enumeration on a variable that does not
occur leaves nothing. -/
theorem multi_filter_not_mem (v : String) (vs : List String) (seq : List Nat)
    (hv : v ∉ vs) :
    ((vs.flatMap fun w => seq.map fun n => (w, n)).filter
      fun k : String × Nat => decide (k.1 = v)) = [] := by
  rw [List.filter_flatMap]
  rw [List.flatMap_eq_nil_iff]
  intro w hw
  rw [List.filter_eq_nil_iff]
  intro a ha
  obtain ⟨n, hn, rfl⟩ := List.mem_map.mp ha
  simp only [decide_eq_true_eq]
  intro heq
  exact hv (heq ▸ hw)

/-- `sequence_keys`: filtering the Cartesian key enumeration on one variable
of the (duplicate-free) axis set recovers the sequence-position list. -/
theorem multi_filter_seq (v : String) (vs : List String) (seq : List Nat)
    (hnd : vs.Nodup) (hv : v ∈ vs) :
    (((vs.flatMap fun w => seq.map fun n => (w, n)).filter
      fun k : String × Nat => decide (k.1 = v)).map Prod.snd) = seq := by
  induction vs with
  | nil => simp at hv
  | cons w ws ih =>
    rw [List.flatMap_cons, List.filter_append]
    by_cases hw : w = v
    · subst hw
      have hnw : w ∉ ws := (List.nodup_cons.mp hnd).1
      rw [multi_filter_not_mem w ws seq hnw, List.append_nil]
      have hself : ((seq.map fun n => (w, n)).filter
          fun k : String × Nat => decide (k.1 = w)) = seq.map fun n => (w, n) := by
        rw [List.filter_eq_self]
        intro a ha
        obtain ⟨n, hn, rfl⟩ := List.mem_map.mp ha
        simp
      rw [hself, List.map_map]
      rw [show (Prod.snd ∘ fun n : Nat => (w, n)) = id from rfl, List.map_id]
    · have hv2 : v ∈ ws := by
        rcases List.mem_cons.mp hv with h | h
        · exact absurd h.symm hw
        · exact h
      have hfilter : ((seq.map fun n => (w, n)).filter
          fun k : String × Nat => decide (k.1 = v)) = [] := by
        rw [List.filter_eq_nil_iff]
        intro a ha
        obtain ⟨n, hn, rfl⟩ := List.mem_map.mp ha
        simp only [decide_eq_true_eq]
        intro heq
        exact hw heq
      rw [hfilter, List.nil_append]
      exact ih (List.nodup_cons.mp hnd).2 hv2

/-- Chunk index of a multi-variable recipe over a duplicate-free axis set:
one block of enumerated groups of `p.sequence` per variable. -/
theorem multi_chunks_inputs (sd : String) (ipc nii : Nat) (rc cz : Bool)
    (tc : Option (List (String × Nat))) (p : VariableSequencePattern)
    (hnd : p.variableKeys.Nodup) :
    (buildMulti sd ipc nii rc cz tc p).chunks_inputs =
      p.variableKeys.flatMap fun v =>
        ((chunked_iterable ipc p.sequence).enum).map
          fun q => ((v, q.1), q.2.map fun n => (v, n)) := by
  simp only [buildMulti]
  rw [multi_pairs_keys]
  refine List.flatMap_congr ?_
  intro v hv
  rw [multi_filter_seq v p.variableKeys p.sequence hnd hv]

/-- Chunk keys of a multi-variable recipe: `(variable, group index)` per
variable block. -/
theorem multi_iter_chunks (sd : String) (ipc nii : Nat) (rc cz : Bool)
    (tc : Option (List (String × Nat))) (p : VariableSequencePattern)
    (hnd : p.variableKeys.Nodup) :
    iter_chunks (buildMulti sd ipc nii rc cz tc p) =
      p.variableKeys.flatMap fun v =>
        ((chunked_iterable ipc p.sequence).enum).map fun q => (v, q.1) := by
  simp only [iter_chunks]
  rw [multi_chunks_inputs sd ipc nii rc cz tc p hnd, List.map_flatMap]
  refine List.flatMap_congr ?_
  intro v hv
  rw [List.map_map]
  refine List.map_congr_left ?_
  intro q hq
  rfl

/-- Looking up chunk key `(v, i)` in the per-variable block structure finds
the `i`-th group tagged with `v`. -/
theorem find?_multi_chunks (vs : List String) (c : List (List Nat)) (v : String)
    (hv : v ∈ vs) (i : Nat) (hi : i < c.length) :
    ((vs.flatMap fun w => (c.enum).map
        fun q => ((w, q.1), q.2.map fun n => (w, n))).find?
      fun q => decide (q.1 = (v, i))) =
    some ((v, i), (c.get ⟨i, hi⟩).map fun n => (v, n)) := by
  induction vs with
  | nil => simp at hv
  | cons w ws ih =>
    rw [List.flatMap_cons, List.find?_append]
    by_cases hw : w = v
    · subst hw
      have hblock : (((c.enum).map fun q => ((w, q.1), q.2.map fun n => (w, n))).find?
          fun q => decide (q.1 = (w, i))) =
          some ((w, i), (c.get ⟨i, hi⟩).map fun n => (w, n)) := by
        rw [List.find?_map]
        have hpred : ((fun q : (String × Nat) × List (String × Nat) =>
            decide (q.1 = (w, i))) ∘
            fun q : Nat × List Nat => ((w, q.1), q.2.map fun n => (w, n))) =
            fun q : Nat × List Nat => decide (q.1 = i) := by
          funext q
          rw [Function.comp]
          rw [decide_eq_decide]
          simp
        rw [hpred, find?_enum_eq_some c i hi]
        rfl
      rw [hblock]
      rfl
    · have hnone : (((c.enum).map fun q => ((w, q.1), q.2.map fun n => (w, n))).find?
          fun q => decide (q.1 = (v, i))) = none := by
        rw [List.find?_eq_none]
        intro x hx
        obtain ⟨q, hq, rfl⟩ := List.mem_map.mp hx
        simp only [decide_eq_true_eq]
        intro heq
        exact hw (congrArg Prod.fst heq)
      rw [hnone]
      have hv2 : v ∈ ws := by
        rcases List.mem_cons.mp hv with h | h
        · exact absurd h.symm hw
        · exact h
      rw [ih hv2]
      rfl

/-- `inputs_for_chunk` of chunk `(v, i)` of a multi-variable recipe: the
`i`-th group of the partitioned sequence positions, tagged with `v`. -/
theorem multi_inputs_for_chunk (sd : String) (ipc nii : Nat) (rc cz : Bool)
    (tc : Option (List (String × Nat))) (p : VariableSequencePattern)
    (hnd : p.variableKeys.Nodup) (v : String) (hv : v ∈ p.variableKeys)
    (i : Nat) (hi : i < (chunked_iterable ipc p.sequence).length) :
    inputs_for_chunk (buildMulti sd ipc nii rc cz tc p) (v, i) =
      ((chunked_iterable ipc p.sequence).get ⟨i, hi⟩).map fun n => (v, n) := by
  simp only [inputs_for_chunk]
  rw [multi_chunks_inputs sd ipc nii rc cz tc p hnd]
  rw [find?_multi_chunks p.variableKeys (chunked_iterable ipc p.sequence) v hv i hi]
  rfl

/-- Inverting a successful multi-variable construction. -/
theorem mkMultiVarRecipe_ok {sd : String} {ipc nii : Nat} {rc cz : Bool}
    {tc : Option (List (String × Nat))} {p : VariableSequencePattern}
    {r : RecipeCore (String × Nat)}
    (hr : mkMultiVarRecipe sd ipc nii rc cz tc p = Except.ok r) :
    r = buildMulti sd ipc nii rc cz tc p := by
  unfold mkMultiVarRecipe at hr
  cases hv : validate_target_chunks sd nii tc with
  | error e =>
    rw [hv] at hr
    simp at hr
  | ok u =>
    rw [hv] at hr
    simp at hr
    exact hr.symm

/-- Membership in the multi-variable chunk-key list. -/
theorem multi_mem_iter_chunks (sd : String) (ipc nii : Nat) (rc cz : Bool)
    (tc : Option (List (String × Nat))) (p : VariableSequencePattern)
    (hnd : p.variableKeys.Nodup) (v : String) (i : Nat) :
    ((v, i) ∈ iter_chunks (buildMulti sd ipc nii rc cz tc p)) ↔
      (v ∈ p.variableKeys ∧ i < (chunked_iterable ipc p.sequence).length) := by
  rw [multi_iter_chunks sd ipc nii rc cz tc p hnd]
  rw [List.mem_flatMap]
  constructor
  · rintro ⟨w, hw, hmem⟩
    obtain ⟨q, hq, heq⟩ := List.mem_map.mp hmem
    have hww : w = v := congrArg Prod.fst heq
    have hqi : q.1 = i := congrArg Prod.snd heq
    subst hww
    refine ⟨hw, ?_⟩
    rw [List.mem_enum_iff_get?] at hq
    obtain ⟨hlt, -⟩ := List.get?_eq_some.mp hq
    rw [← hqi]
    exact hlt
  · rintro ⟨hv, hi⟩
    refine ⟨v, hv, ?_⟩
    refine List.mem_map.mpr
      ⟨(i, (chunked_iterable ipc p.sequence).get ⟨i, hi⟩), ?_, rfl⟩
    rw [List.mem_enum_iff_get?]
    exact List.get?_eq_get hi

/-- Filtering an enumeration for index `0` keeps exactly the head entry. -/
theorem filter_enum_zero {α : Type} (c : List α) (hc : c ≠ []) :
    (c.enum.filter fun q => decide (q.1 = 0)) =
      [(0, c.get ⟨0, List.length_pos.mpr hc⟩)] := by
  cases c with
  | nil => exact absurd rfl hc
  | cons a as =>
    rw [List.enum_cons, List.filter_cons]
    rw [if_pos (by simp)]
    have hrest : (List.filter (fun q => decide (q.1 = 0)) (List.enumFrom 1 as)) = [] := by
      rw [List.filter_eq_nil_iff]
      rintro ⟨j, x⟩ hq
      obtain ⟨hj, -, -⟩ := List.mem_enumFrom hq
      simp only [decide_eq_true_eq]
      omega
    rw [hrest]
    rfl

/-- A `flatMap` of singletons is a `map`. -/
theorem flatMap_singleton_eq_map {α β : Type} (f : α → β) (l : List α) :
    (l.flatMap fun a => [f a]) = l.map f := by
  induction l with
  | nil => rfl
  | cons a as ih =>
    rw [List.flatMap_cons, ih]
    rfl

/-- Claim C6: the initialization chunk set is minimal as specified — a
sequential recipe initializes from exactly the first chunk key, and a
multi-variable recipe (duplicate-free axis set, nonempty sequence)
initializes from exactly one chunk per axis value, the chunk whose
sequence-position component is `0`. -/
theorem C6_init_chunks_minimal (sd : String) (ipc nii : Nat) (rc cz : Bool)
    (tc : Option (List (String × Nat))) (P I : List String) (r : RecipeCore Nat)
    (sd2 : String) (ipc2 nii2 : Nat) (rc2 cz2 : Bool)
    (tc2 : Option (List (String × Nat))) (p : VariableSequencePattern)
    (rm : RecipeCore (String × Nat))
    (hr : mkSequentialRecipe sd ipc nii rc cz tc P I = Except.ok r)
    (hrm : mkMultiVarRecipe sd2 ipc2 nii2 rc2 cz2 tc2 p = Except.ok rm)
    (hnd : p.variableKeys.Nodup) (hseq : p.sequence ≠ []) :
    r.init_chunks = [0] ∧
    rm.init_chunks = (p.variableKeys.map fun v => (v, 0)) := by
  obtain ⟨hreq, hne, -⟩ := mkSequentialRecipe_ok hr
  have hrmeq := mkMultiVarRecipe_ok hrm
  subst hreq
  subst hrmeq
  constructor
  · rw [show (buildSequential sd ipc nii rc cz tc P I).init_chunks =
      (iter_chunks (buildSequential sd ipc nii rc cz tc P I)).take 1 from rfl]
    rw [seq_iter_chunks]
    have hm : 0 < (chunked_iterable ipc (List.range (P.length + I.length))).length := by
      rw [seq_chunks_inputs] at hne
      have hlen := List.enum_length
        (l := chunked_iterable ipc (List.range (P.length + I.length)))
      have hpos := List.length_pos.mpr hne
      omega
    obtain ⟨m2, hm2⟩ : ∃ m2,
        (chunked_iterable ipc (List.range (P.length + I.length))).length = m2 + 1 :=
      ⟨(chunked_iterable ipc (List.range (P.length + I.length))).length - 1, by omega⟩
    rw [hm2, List.range_succ_eq_map]
    rfl
  · rw [show (buildMulti sd2 ipc2 nii2 rc2 cz2 tc2 p).init_chunks =
      (iter_chunks (buildMulti sd2 ipc2 nii2 rc2 cz2 tc2 p)).filter
        (fun k => decide (k.2 = 0)) from rfl]
    rw [multi_iter_chunks sd2 ipc2 nii2 rc2 cz2 tc2 p hnd]
    rw [List.filter_flatMap]
    have hc : chunked_iterable ipc2 p.sequence ≠ [] :=
      chunked_iterable_ne_nil ipc2 p.sequence hseq
    have hblock : ∀ v ∈ p.variableKeys,
        ((((chunked_iterable ipc2 p.sequence).enum).map
          fun q => (v, q.1)).filter fun k => decide (k.2 = 0)) = [(v, 0)] := by
      intro v hv
      rw [List.filter_map]
      rw [show ((fun k : String × Nat => decide (k.2 = 0)) ∘
          fun q : Nat × List Nat => (v, q.1)) =
          (fun q : Nat × List Nat => decide (q.1 = 0)) from rfl]
      rw [filter_enum_zero (chunked_iterable ipc2 p.sequence) hc]
      rfl
    rw [List.flatMap_congr hblock]
    exact flatMap_singleton_eq_map (fun v => (v, 0)) p.variableKeys

/-- Witness for C6 at the concrete recipes `rExC1` (sequential) and `rExM`
(multi-variable). -/
theorem C6_init_chunks_minimal_witness :
    (mkSequentialRecipe "time" 1 2 true true none [] ["a", "b", "c"] =
        Except.ok rExC1 ∧
      mkMultiVarRecipe "time" 1 1 true true none pExM = Except.ok rExM ∧
      pExM.variableKeys.Nodup ∧ pExM.sequence ≠ []) ∧
    (rExC1.init_chunks = [0] ∧
      rExM.init_chunks = (pExM.variableKeys.map fun v => (v, 0))) :=
  ⟨⟨rfl, rfl, by decide, by decide⟩,
    C6_init_chunks_minimal "time" 1 2 true true none [] ["a", "b", "c"] rExC1
      "time" 1 1 true true none pExM rExM rfl rfl (by decide) (by decide)⟩

/-- Claim C8: for a multi-variable recipe with distinct axis values `A` and
`B`, chunk keys never alias across axis values, placement depends only on
the sequence-position component (`chunk_position (v, i) = i`), and
`region_for_chunk` yields the same region for the same sequence position
regardless of axis value. -/
theorem C8_multi_axis_independence (sd : String) (ipc nii : Nat) (rc cz : Bool)
    (tc : Option (List (String × Nat))) (p : VariableSequencePattern)
    (rm : RecipeCore (String × Nat)) (A B : String)
    (hrm : mkMultiVarRecipe sd ipc nii rc cz tc p = Except.ok rm)
    (hnd : p.variableKeys.Nodup) (hA : A ∈ p.variableKeys)
    (hB : B ∈ p.variableKeys) (hAB : A ≠ B) :
    (∀ k ∈ iter_chunks rm, ¬(k.1 = A ∧ k.1 = B)) ∧
    (∀ i : Nat, rm.chunk_position (A, i) = i ∧ rm.chunk_position (B, i) = i) ∧
    (∀ i : Nat, (A, i) ∈ iter_chunks rm → (B, i) ∈ iter_chunks rm →
      region_for_chunk rm (A, i) = region_for_chunk rm (B, i)) := by
  have hrmeq := mkMultiVarRecipe_ok hrm
  subst hrmeq
  refine ⟨?_, ?_, ?_⟩
  · rintro k hk ⟨h1, h2⟩
    exact hAB (h1.symm.trans h2)
  · intro i
    exact ⟨rfl, rfl⟩
  · intro i hAi hBi
    have hiA := (multi_mem_iter_chunks sd ipc nii rc cz tc p hnd A i).mp hAi
    have hilen : i < (chunked_iterable ipc p.sequence).length := hiA.2
    simp only [region_for_chunk, nitems_for_chunk]
    rw [multi_inputs_for_chunk sd ipc nii rc cz tc p hnd A hA i hilen]
    rw [multi_inputs_for_chunk sd ipc nii rc cz tc p hnd B hB i hilen]
    rw [List.length_map, List.length_map]
    rfl

/-- Witness for C8 at `rExM`: variables `"foo"` and `"bar"`, sequence
position `0`. -/
theorem C8_multi_axis_independence_witness :
    (mkMultiVarRecipe "time" 1 1 true true none pExM = Except.ok rExM ∧
      pExM.variableKeys.Nodup ∧ "foo" ∈ pExM.variableKeys ∧
      "bar" ∈ pExM.variableKeys ∧ "foo" ≠ "bar" ∧
      ("foo", 0) ∈ iter_chunks rExM ∧ ("bar", 0) ∈ iter_chunks rExM) ∧
    region_for_chunk rExM ("foo", 0) = region_for_chunk rExM ("bar", 0) :=
  ⟨⟨rfl, by decide, by decide, by decide, by decide, by decide, by decide⟩,
    (C8_multi_axis_independence "time" 1 1 true true none pExM rExM "foo" "bar"
      rfl (by decide) (by decide) (by decide) (by decide)).2.2 0
      (by decide) (by decide)⟩

/-- A key of the input index looks up to its (first) record, and that record
is one of the index's records. -/
theorem lookup_some_of_mem_keys {κ : Type} [DecidableEq κ] (r : RecipeCore κ)
    (k : κ) (hk : k ∈ r.inputs.map Prod.fst) :
    ∃ rec, lookupInput r k = some rec ∧ rec ∈ r.inputs.map Prod.snd := by
  obtain ⟨q, hq, hq1⟩ := List.mem_map.mp hk
  have hsome : (r.inputs.find? fun e => decide (e.1 = k)).isSome :=
    List.find?_isSome.mpr ⟨q, hq, by rw [hq1]; simp⟩
  cases hfind : r.inputs.find? fun e => decide (e.1 = k) with
  | none => rw [hfind] at hsome; simp at hsome
  | some e =>
    refine ⟨e.2, ?_, ?_⟩
    · simp [lookupInput, hfind]
    · exact List.mem_map.mpr ⟨e, List.mem_of_find?_eq_some hfind, rfl⟩

/-- A key of the chunk index looks up to one of the index's entries. -/
theorem inputs_for_chunk_of_mem {κ : Type} [DecidableEq κ] (r : RecipeCore κ)
    (ck : κ) (hck : ck ∈ iter_chunks r) :
    ∃ e, e ∈ r.chunks_inputs ∧ e.1 = ck ∧ inputs_for_chunk r ck = e.2 := by
  obtain ⟨q, hq, hq1⟩ := List.mem_map.mp hck
  have hsome : (r.chunks_inputs.find? fun e => decide (e.1 = ck)).isSome :=
    List.find?_isSome.mpr ⟨q, hq, by rw [hq1]; simp⟩
  cases hfind : r.chunks_inputs.find? fun e => decide (e.1 = ck) with
  | none => rw [hfind] at hsome; simp at hsome
  | some e =>
    refine ⟨e, List.mem_of_find?_eq_some hfind, ?_, ?_⟩
    · have hpred := List.find?_some hfind
      simp at hpred
      exact hpred
    · simp [inputs_for_chunk, hfind]

/-- Every entry of the multi-variable chunk index has a nonempty input list,
all of whose keys belong to the input index. -/
theorem multi_chunk_entry_facts (sd : String) (ipc nii : Nat) (rc cz : Bool)
    (tc : Option (List (String × Nat))) (p : VariableSequencePattern)
    (e : (String × Nat) × List (String × Nat))
    (he : e ∈ (buildMulti sd ipc nii rc cz tc p).chunks_inputs) :
    e.2 ≠ [] ∧
    ∀ ik ∈ e.2, ik ∈ (buildMulti sd ipc nii rc cz tc p).inputs.map Prod.fst := by
  simp only [buildMulti] at he ⊢
  rw [List.mem_flatMap] at he
  obtain ⟨v, hv, hmem⟩ := he
  obtain ⟨q, hq, rfl⟩ := List.mem_map.mp hmem
  have hq2mem : q.2 ∈ chunked_iterable ipc
      ((((p.pairs.map fun w => (w.1, InputRecord.mk w.2 false)).map
        Prod.fst).filter fun k => decide (k.1 = v)).map Prod.snd) := by
    rw [List.mem_enum_iff_get?] at hq
    exact List.get?_mem hq
  constructor
  · intro hemp
    rw [List.map_eq_nil_iff] at hemp
    exact chunkedFuel_ne_nil ipc _ _ q.2 hq2mem hemp
  · intro ik hik
    obtain ⟨n, hn, rfl⟩ := List.mem_map.mp hik
    have hnS : n ∈ (((p.pairs.map fun w => (w.1, InputRecord.mk w.2 false)).map
        Prod.fst).filter fun k => decide (k.1 = v)).map Prod.snd := by
      have hflat : n ∈ (chunked_iterable ipc
          ((((p.pairs.map fun w => (w.1, InputRecord.mk w.2 false)).map
            Prod.fst).filter fun k => decide (k.1 = v)).map Prod.snd)).flatten :=
        List.mem_flatten.mpr ⟨q.2, hq2mem, hn⟩
      rwa [chunked_iterable_flatten] at hflat
    obtain ⟨kk, hkk, hkk2⟩ := List.mem_map.mp hnS
    obtain ⟨hkkmem, hkkpred⟩ := List.mem_filter.mp hkk
    have hkk1 : kk.1 = v := of_decide_eq_true hkkpred
    have hpair : (v, n) = kk := by
      obtain ⟨k1, k2⟩ := kk
      simp only at hkk1 hkk2
      rw [hkk1, hkk2]
    rw [hpair]
    exact hkkmem

/-- Claim C10: a multi-variable recipe marks every input unprocessed and its
processed-input count zero; consequently `cache_input` always transfers (the
cache log grows) and `store_chunk` is never skipped as already-processed
(whenever it returns at all, the store log grows). -/
theorem C10_multi_never_skipped (sd : String) (ipc nii : Nat) (rc cz : Bool)
    (tc : Option (List (String × Nat))) (p : VariableSequencePattern)
    (rm : RecipeCore (String × Nat)) (k ck : String × Nat)
    (s : RunState (String × Nat))
    (hrm : mkMultiVarRecipe sd ipc nii rc cz tc p = Except.ok rm)
    (hk : k ∈ rm.inputs.map Prod.fst) (hck : ck ∈ iter_chunks rm)
    (hs : s.recipe = rm) :
    rm.processed_input_nb = 0 ∧
    (∀ q ∈ rm.inputs, q.2.processed = false) ∧
    ((cache_input k s).map (fun t => t.exec.cacheLog.length) =
      Except.ok (s.exec.cacheLog.length + 1)) ∧
    ((inputs_for_chunk rm ck).all (fun ik => processedOf rm ik) = false) ∧
    (∀ t, store_chunk ck s = Except.ok t →
      t.exec.storeLog.length = s.exec.storeLog.length + 1) := by
  have hrmeq := mkMultiVarRecipe_ok hrm
  subst hrmeq
  have hallfalse : ∀ q ∈ (buildMulti sd ipc nii rc cz tc p).inputs,
      q.2.processed = false := by
    intro q hq
    simp only [buildMulti] at hq
    obtain ⟨w, hw, rfl⟩ := List.mem_map.mp hq
    rfl
  have hlookfalse : ∀ kk rec,
      lookupInput (buildMulti sd ipc nii rc cz tc p) kk = some rec →
      rec.processed = false := by
    intro kk rec hrec
    simp only [lookupInput] at hrec
    obtain ⟨e, hefind, hee⟩ := Option.map_eq_some'.mp hrec
    rw [← hee]
    exact hallfalse e (List.mem_of_find?_eq_some hefind)
  obtain ⟨rec0, hrec0, -⟩ := lookup_some_of_mem_keys _ k hk
  have hrec0false := hlookfalse k rec0 hrec0
  obtain ⟨e, hemem, he1, he2⟩ := inputs_for_chunk_of_mem _ ck hck
  obtain ⟨hene, hesub⟩ := multi_chunk_entry_facts sd ipc nii rc cz tc p e hemem
  have hallb : (inputs_for_chunk (buildMulti sd ipc nii rc cz tc p) ck).all
      (fun ik => processedOf (buildMulti sd ipc nii rc cz tc p) ik) = false := by
    rw [he2, List.all_eq_false]
    obtain ⟨ik0, hik0⟩ := List.exists_mem_of_ne_nil e.2 hene
    refine ⟨ik0, hik0, ?_⟩
    obtain ⟨rec1, hrec1, -⟩ := lookup_some_of_mem_keys _ ik0 (hesub ik0 hik0)
    have hf := hlookfalse ik0 rec1 hrec1
    simp [processedOf, hrec1, hf]
  refine ⟨rfl, hallfalse, ?_, hallb, ?_⟩
  · rcases cache_input_spec k s with
      ⟨hk2, he'⟩ | ⟨rec2, hk2, hp2, he'⟩ | ⟨rec2, hk2, hp2, he'⟩
    · rw [hs, hrec0] at hk2
      exact Option.noConfusion hk2
    · rw [hs, hrec0] at hk2
      have hr2 := Option.some.inj hk2
      rw [← hr2, hrec0false] at hp2
      exact Bool.noConfusion hp2
    · rw [he']
      simp [Except.map, List.length_append]
  · intro t ht
    rcases store_chunk_spec ck s with
      ⟨hall2, he'⟩ | ⟨e2, hall2, ho2, he'⟩ | ⟨ds2, hall2, ho2, he'⟩
    · rw [hs, hallb] at hall2
      exact Bool.noConfusion hall2
    · rw [he'] at ht
      exact Except.noConfusion ht
    · rw [he'] at ht
      have hteq := Except.ok.inj ht
      rw [← hteq]
      simp [List.length_append]

/-- Witness for C10 at `rExM`, input key `("foo", 0)`, chunk key
`("foo", 0)`. -/
theorem C10_multi_never_skipped_witness :
    (mkMultiVarRecipe "time" 1 1 true true none pExM = Except.ok rExM ∧
      ("foo", 0) ∈ rExM.inputs.map Prod.fst ∧
      ("foo", 0) ∈ iter_chunks rExM ∧ sExM.recipe = rExM) ∧
    (rExM.processed_input_nb = 0 ∧
      (∀ q ∈ rExM.inputs, q.2.processed = false) ∧
      ((cache_input ("foo", 0) sExM).map (fun t => t.exec.cacheLog.length) =
        Except.ok (sExM.exec.cacheLog.length + 1)) ∧
      ((inputs_for_chunk rExM ("foo", 0)).all
        (fun ik => processedOf rExM ik) = false) ∧
      (∀ t, store_chunk ("foo", 0) sExM = Except.ok t →
        t.exec.storeLog.length = sExM.exec.storeLog.length + 1)) :=
  ⟨⟨rfl, by decide, by decide, rfl⟩,
    C10_multi_never_skipped "time" 1 1 true true none pExM rExM
      ("foo", 0) ("foo", 0) sExM rfl (by decide) (by decide) rfl⟩
